import Mathlib

/-!
# Verification of the Knowledge-Base Ingestion & Retrieval Engine

Shallow embedding of the KB subsystem of `support-autopilot`:
* the tokenizer and stop-word filter of `src/kb/retrieval.ts` (`extractTerms`,
  `STOP_WORDS`), including a faithful model of the JavaScript regular
  expression `/\b[a-z]+\b/g` used for word extraction,
* the LRU term cache (`getCachedTerms` / `setCachedTerms`),
* inverted-index construction (`buildIndex`) and querying (`search`),
* the two chunkers (`chunkMarkdown`, `chunkText`) of `src/kb/chunking.ts`,
* the bounded-concurrency batch driver (`processBatch`) of `src/kb/ingest.ts`.

Modelling conventions: JavaScript `Map` and `Set` are modelled as
insertion-ordered association lists / lists of distinct elements, which is
exactly the iteration order the code relies on.  JavaScript numbers appearing
here are integers (line counts, scores before normalisation) or exact small
rationals (normalised scores), so `Int`/`Nat`/`Rat` model them without loss:
no computation in the claims approaches a floating-point rounding boundary,
and division by the common positive denominator (the query-term count) is
order- and equality-preserving.  Strings are ASCII in all scenarios; Lean's
`Char` functions agree with the JavaScript ones on ASCII.
-/

namespace KB

/-! ## Tokenizer (`extractTerms` of retrieval.ts)

`extractTerms` lowercases, then collects the matches of the global regex
`/\b[a-z]+\b/g`, then filters stop words and short words, then deduplicates
via `new Set` (which keeps first-occurrence order).

The regex matcher semantics: a match is a maximal run of `[a-z]` whose
neighbouring characters (when they exist) are both non-word characters,
where a word character is `[A-Za-z0-9_]` (JavaScript `\b` is defined from
`\w`).  A letter run bordered by a digit or underscore produces no match at
all; the engine does not shrink the run, because any shorter candidate ends
at a letter–letter boundary where `\b` fails.  `jsWordsAux` below simulates
the left-to-right scan of the engine. -/

def isAsciiLowerAlpha (c : Char) : Bool :=
  'a' ≤ c && c ≤ 'z'

/-- JavaScript `\w`: ASCII letters, digits, underscore. -/
def isJsWordChar (c : Char) : Bool :=
  c.isAlpha || c.isDigit || c == '_'

/-- Left-to-right scan collecting the matches of `/\b[a-z]+\b/g`.
`startOk` records whether the character just before the run currently being
accumulated (reversed in `run`) was a non-word character or the start of the
string. -/
def jsWordsAux : List Char → Bool → List Char → List (List Char)
  | [], startOk, run =>
      if run ≠ [] ∧ startOk then [run.reverse] else []
  | c :: cs, startOk, run =>
      if isAsciiLowerAlpha c then
        jsWordsAux cs startOk (c :: run)
      else
        (if run ≠ [] ∧ startOk ∧ ¬ isJsWordChar c then [run.reverse] else [])
          ++ jsWordsAux cs (! isJsWordChar c) []

/-- The list of matches of `/\b[a-z]+\b/g` over `s`, in order.  This models
`s.match(/\b[a-z]+\b/g) ?? []` (a `null` result becomes the empty list). -/
def jsWords (s : String) : List String :=
  (jsWordsAux s.data true []).map List.asString

/-- `STOP_WORDS` of retrieval.ts, verbatim. -/
def STOP_WORDS : List String :=
  ["the", "a", "an", "is", "are", "was", "were", "be", "been",
   "being", "have", "has", "had", "do", "does", "did", "will",
   "would", "could", "should", "may", "might", "must", "shall",
   "can", "need", "dare", "ought", "used", "to", "of", "in",
   "for", "on", "with", "at", "by", "from", "as", "into",
   "through", "during", "before", "after", "above", "below",
   "between", "under", "and", "but", "or", "yet", "so",
   "if", "because", "although", "though", "while", "where",
   "when", "that", "which", "who", "whom", "whose", "what",
   "this", "these", "those", "i", "you", "he", "she", "it",
   "we", "they", "me", "him", "her", "us", "them"]

/-- Helper for `dedupFirst`: `seen` is the set of already-emitted strings. -/
def dedupFirstAux (seen : List String) : List String → List String
  | [] => []
  | w :: ws =>
      if w ∈ seen then dedupFirstAux seen ws
      else w :: dedupFirstAux (w :: seen) ws

/-- `[...new Set(xs)]`: deduplication keeping the first occurrence. -/
def dedupFirst (ws : List String) : List String :=
  dedupFirstAux [] ws

/-- `text.toLowerCase()` on the character list (ASCII; agrees with the
JavaScript method on every string appearing in the spec's scenarios). -/
def jsToLower (s : String) : String :=
  (s.data.map Char.toLower).asString

/-- The pure tokenizer: body of `extractTerms` of retrieval.ts with the
cache peeled off (the cached variant is modelled separately and proved to
agree). -/
def extractTermsPure (text : String) : List String :=
  let normalized := jsToLower text
  let words := jsWords normalized
  dedupFirst (words.filter (fun w => w ∉ STOP_WORDS ∧ w.length > 2))

/-! ### Two candidate word-extraction specifications for claim C2

`maxAlphaRunsAux` follows the spec's words literally: every maximal run of
alphabetic characters is a candidate word, digits and punctuation acting
only as separators.  `boundedRuns` is the amended characterisation: a
maximal alphabetic run is a candidate word only when the characters
adjacent to it (if any) are non-word characters — the JavaScript `\b`
boundary requirement. -/

/-- Maximal runs of (lower-case) alphabetic characters, every other
character acting as a plain separator.  This is the original claim's
reading of the tokenizer. -/
def maxAlphaRunsAux : List Char → List Char → List (List Char)
  | [], run => if run ≠ [] then [run.reverse] else []
  | c :: cs, run =>
      if isAsciiLowerAlpha c then maxAlphaRunsAux cs (c :: run)
      else (if run ≠ [] then [run.reverse] else []) ++ maxAlphaRunsAux cs []

/-- The tokenizer as the original claim C2 states it: lowercase, maximal
alphabetic runs (digits/punctuation as separators), length filter,
stop-word filter, first-occurrence deduplication. -/
def extractTermsClaimed (text : String) : List String :=
  let normalized := jsToLower text
  let words := (maxAlphaRunsAux normalized.data []).map List.asString
  dedupFirst (words.filter (fun w => w ∉ STOP_WORDS ∧ w.length > 2))

/-- The first character of `rest` (if any) is not a word character, i.e.
the regex `\b` holds between a letter and `rest`. -/
def afterOk : List Char → Bool
  | [] => true
  | d :: _ => ! isJsWordChar d

/-- Amended characterisation of the regex matches: maximal alphabetic runs
taken in one step (`takeWhile`/`dropWhile`), kept only when the preceding
(`prevOk`) and following characters are absent or non-word. -/
def boundedRuns (prevOk : Bool) : List Char → List (List Char)
  | [] => []
  | c :: cs =>
      if isAsciiLowerAlpha c then
        let run := c :: cs.takeWhile isAsciiLowerAlpha
        let rest := cs.dropWhile isAsciiLowerAlpha
        (if prevOk && afterOk rest then [run] else []) ++ boundedRuns false rest
      else
        boundedRuns (! isJsWordChar c) cs
  termination_by cs => cs.length
  decreasing_by
    · exact Nat.lt_succ_of_le (List.dropWhile_sublist _ |>.length_le)
    · exact Nat.lt_succ_self _

/-! ## Data model (contracts/kb-source.ts)

`KBChunk` / `KBSource` as validated by `KBChunkSchema` / `KBSourceSchema`.
The open `metadata` record is modelled by the two fields the chunkers
actually write (`char_count`, `word_count`); the tenant fields and
timestamps play no role in any claim and are kept only where the code reads
them.  Line numbers are `Int`, matching JavaScript integer arithmetic
exactly (no truncation at zero). -/

structure ChunkMetadata where
  char_count : Nat := 0
  word_count : Nat := 0
deriving Repr, DecidableEq

structure KBChunk where
  id : String := ""
  content : String := ""
  source_id : String := ""
  start_line : Int := 0
  end_line : Int := 0
  heading_path : List String := []
  metadata : ChunkMetadata := {}
deriving Repr, DecidableEq

instance : Inhabited KBChunk := ⟨{}⟩

structure KBSource where
  id : String := ""
  title : String := ""
  content : String := ""
  chunks : List KBChunk := []
deriving Repr, DecidableEq

/-! ## JavaScript `Map` / `Set` as insertion-ordered association lists -/

/-- `Map.set`: update in place when the key exists, append otherwise. -/
def mapSet {α : Type} : List (String × α) → String → α → List (String × α)
  | [], k, v => [(k, v)]
  | (k', v') :: rest, k, v =>
      if k' = k then (k, v) :: rest else (k', v') :: mapSet rest k v

/-- `Map.get`: the value stored at `k`, if any. -/
def mapGet? {α : Type} (m : List (String × α)) (k : String) : Option α :=
  (m.find? (fun p => p.1 = k)).map (·.2)

/-- `Set.add` on a posting set of chunk positions. -/
def setAdd (s : List Nat) (i : Nat) : List Nat :=
  if i ∈ s then s else s ++ [i]

/-! ## Inverted index (`buildIndex` of retrieval.ts) -/

structure RetrievalIndex where
  tenantId : String
  projectId : String
  sources : List (String × KBSource)
  chunks : List KBChunk
  termIndex : List (String × List Nat)
deriving Repr, DecidableEq

/-- `termIndex.get(term)!.add(chunkIndex)`, creating the posting set on
first use. -/
def addPosting : List (String × List Nat) → String → Nat → List (String × List Nat)
  | [], term, i => [(term, [i])]
  | (t, ps) :: rest, term, i =>
      if t = term then (t, setAdd ps i) :: rest
      else (t, ps) :: addPosting rest term i

/-- First loop of `buildIndex`: append every source's chunks, in source
order then within-source order, to the flat chunk array. -/
def buildIndexChunks (sources : List KBSource) : List KBChunk :=
  sources.foldl (fun cs s => s.chunks.foldl (fun cs' c => cs' ++ [c]) cs) []

/-- Second loop of `buildIndex`: for `i = 0 .. n-1`, extract the terms of
`allContents[i]` and insert position `i` into each term's posting set. -/
def buildTermIndex (contents : List String) : List (String × List Nat) :=
  (List.range contents.length).foldl
    (fun ti i =>
      (extractTermsPure (contents.getD i "")).foldl
        (fun ti' term => addPosting ti' term i) ti)
    []

def buildIndex (tenantId projectId : String) (sources : List KBSource) :
    RetrievalIndex :=
  let sourceMap := sources.foldl (fun m s => mapSet m s.id s) []
  let chunks := buildIndexChunks sources
  let termIndex := buildTermIndex (chunks.map (fun c => c.content))
  { tenantId := tenantId, projectId := projectId,
    sources := sourceMap, chunks := chunks, termIndex := termIndex }

/-! ## Retriever (`search` of retrieval.ts) -/

structure RetrievalResult where
  chunk : KBChunk
  score : Rat
deriving Repr, DecidableEq

structure SearchOptions where
  topK : Nat := 5
  minScore : Rat := mkRat 1 10
deriving Repr, DecidableEq

/-- `chunkScores.set(chunkIdx, (chunkScores.get(chunkIdx) ?? 0) + 1)`. -/
def bumpScore : List (Nat × Nat) → Nat → List (Nat × Nat)
  | [], i => [(i, 1)]
  | (j, v) :: rest, i =>
      if j = i then (j, v + 1) :: rest else (j, v) :: bumpScore rest i

/-- The per-chunk raw scores after iterating all query terms, in `Map`
insertion order (order of first encounter). -/
def rawScores (index : RetrievalIndex) (queryTerms : List String) :
    List (Nat × Nat) :=
  queryTerms.foldl
    (fun scores term =>
      match mapGet? index.termIndex term with
      | none => scores
      | some ps => ps.foldl bumpScore scores)
    []

/-- Normalisation by the number of distinct query terms and the `minScore`
filter, in `Map` iteration order. -/
def scoreCandidates (index : RetrievalIndex) (query : String)
    (opts : SearchOptions) : List (Nat × Rat) :=
  let queryTerms := extractTermsPure query
  ((rawScores index queryTerms).map
      (fun p => (p.1, mkRat (p.2 : Int) queryTerms.length))).filter
    (fun p => opts.minScore ≤ p.2)

/-- The comparator `(a, b) => b.score - a.score` as a boolean "a may come
before b" relation: non-increasing scores. -/
def resultLE (a b : Nat × Rat) : Bool :=
  decide (b.2 ≤ a.2)

/-- Stable insertion: `x` goes after every element it does not strictly
precede.  A stable sort's output is uniquely determined, so this models
JavaScript's (specified-stable) `Array.prototype.sort`. -/
def insertStable {α : Type} (le : α → α → Bool) (x : α) : List α → List α
  | [] => [x]
  | y :: ys =>
      if le x y && ! le y x then x :: y :: ys else y :: insertStable le x ys

/-- Stable sort by left-to-right insertion. -/
def sortStable {α : Type} (le : α → α → Bool) (l : List α) : List α :=
  l.foldl (fun acc x => insertStable le x acc) []

/-- `search`, tracked at the level of chunk positions: score accumulation,
normalisation, `minScore` filter, stable descending sort, `topK`
truncation. -/
def searchPositions (index : RetrievalIndex) (query : String)
    (opts : SearchOptions) : List (Nat × Rat) :=
  (sortStable resultLE (scoreCandidates index query opts)).take opts.topK

/-- `search` of retrieval.ts.  The code sorts the `{chunk, score}` records;
since the comparator reads only the score, sorting the `(position, score)`
pairs and then looking the chunks up is the same list. -/
def search (index : RetrievalIndex) (query : String)
    (opts : SearchOptions) : List RetrievalResult :=
  (searchPositions index query opts).map
    (fun p => { chunk := index.chunks.getD p.1 default, score := p.2 })

/-- `retrieveForTicket`: concatenate subject and body, truncate to 500
characters, delegate to `search`. -/
def retrieveForTicket (index : RetrievalIndex) (ticketSubject ticketBody : String)
    (opts : SearchOptions) : List RetrievalResult :=
  let query := (ticketSubject ++ " " ++ ticketBody).data.take 500 |>.asString
  search index query opts

/-! ### Concrete fixtures for the scenario claims -/

/-- Scenario A source: one chunk `"API authentication requires a valid
token"`. -/
def srcScenarioA : KBSource :=
  { id := "kb1", title := "API",
    content := "API authentication requires a valid token",
    chunks := [{ id := "c1",
                 content := "API authentication requires a valid token",
                 source_id := "kb1", start_line := 0, end_line := 1 }] }

def idxScenarioA : RetrievalIndex := buildIndex "t1" "p1" [srcScenarioA]

/-- Tie-order fixture: chunk 0 mentions only `zebra`, chunk 1 only
`apple`. -/
def srcTie : KBSource :=
  { id := "kb1", title := "Tie",
    content := "zebra apple",
    chunks := [{ id := "c0", content := "zebra", source_id := "kb1" },
               { id := "c1", content := "apple", source_id := "kb1" }] }

def idxTie : RetrievalIndex := buildIndex "t1" "p1" [srcTie]

/-! ## LRU term cache (retrieval.ts)

The module-level `termCache : Map<string, string[]>` is modelled as an
insertion-ordered association list, oldest entry first, threaded explicitly
through the operations that touch it. -/

abbrev TermCache := List (String × List String)

def MAX_CACHE_SIZE : Nat := 1000

/-- `getCachedTerms`: on a hit the entry is deleted and re-inserted at the
end (most recently used). -/
def getCachedTerms (cache : TermCache) (text : String) :
    Option (List String) × TermCache :=
  match mapGet? cache text with
  | none => (none, cache)
  | some terms =>
      (some terms, cache.eraseP (fun p => p.1 == text) ++ [(text, terms)])

/-- `setCachedTerms`: evict the oldest entry when the cache is full, then
`Map.set`. -/
def setCachedTerms (cache : TermCache) (text : String) (terms : List String) :
    TermCache :=
  let cache' := if MAX_CACHE_SIZE ≤ cache.length then cache.tail else cache
  mapSet cache' text terms

/-- `extractTerms` of retrieval.ts: the cached tokenizer, returning the
terms together with the updated module-level cache. -/
def extractTerms (cache : TermCache) (text : String) :
    List String × TermCache :=
  match getCachedTerms cache text with
  | (some cached, cache') => (cached, cache')
  | (none, cache') =>
      let terms := extractTermsPure text
      (terms, setCachedTerms cache' text terms)

/-- `clearTermCache` of retrieval.ts. -/
def clearTermCache : TermCache := []

/-- Every cache entry stores exactly the tokenizer's output for its key.
This is the invariant of all caches reachable through `extractTerms` /
`clearTermCache`. -/
def validCache (cache : TermCache) : Bool :=
  cache.all (fun p => p.2 == extractTermsPure p.1)

/-- The chain of `extractTerms` calls performed by `buildIndex`'s term
loop, in chunk order, threading the cache. -/
def extractAllCached (cache : TermCache) : List String → List (List String) × TermCache
  | [] => ([], cache)
  | c :: cs =>
      let (ts, cache') := extractTerms cache c
      let (tss, cache'') := extractAllCached cache' cs
      (ts :: tss, cache'')

/-- `buildIndex` with the module-level cache threaded through.  The code
interleaves term extraction and posting insertion inside one loop; posting
insertion does not touch the cache, so extraction is sequenced first here
with the same call order. -/
def buildIndexCached (tenantId projectId : String) (sources : List KBSource)
    (cache : TermCache) : RetrievalIndex × TermCache :=
  let sourceMap := sources.foldl (fun m s => mapSet m s.id s) []
  let chunks := buildIndexChunks sources
  let contents := chunks.map (fun c => c.content)
  let (termsList, cache') := extractAllCached cache contents
  let termIndex :=
    (List.range contents.length).foldl
      (fun ti i => (termsList.getD i []).foldl
        (fun ti' term => addPosting ti' term i) ti)
      []
  ({ tenantId := tenantId, projectId := projectId,
     sources := sourceMap, chunks := chunks, termIndex := termIndex }, cache')

/-- `search` with the module-level cache threaded through its query-term
extraction. -/
def searchCached (index : RetrievalIndex) (query : String)
    (opts : SearchOptions) (cache : TermCache) :
    List RetrievalResult × TermCache :=
  let (queryTerms, cache') := extractTerms cache query
  let candidates :=
    ((rawScores index queryTerms).map
        (fun p => (p.1, mkRat (p.2 : Int) queryTerms.length))).filter
      (fun p => opts.minScore ≤ p.2)
  (((sortStable resultLE candidates).take opts.topK).map
      (fun p => { chunk := index.chunks.getD p.1 default, score := p.2 }),
    cache')

/-! ## Chunkers (`chunkMarkdown` / `chunkText` of chunking.ts)

String helpers are defined on character lists so that every definition is
structurally recursive (and hence evaluable inside the kernel); each models
the JavaScript string method named in its doc comment, on ASCII input. -/

structure ChunkingOptions where
  maxChunkSize : Nat := 1000
  minChunkSize : Nat := 100
  overlap : Nat := 50
deriving Repr, DecidableEq

def DEFAULT_CHUNKING_OPTIONS : ChunkingOptions := {}

/-- `s.trim()`. -/
def jsTrim (s : String) : String :=
  ((s.data.dropWhile Char.isWhitespace).reverse.dropWhile
      Char.isWhitespace).reverse.asString

/-- `lines.join(sep)`. -/
def joinSep (sep : String) : List String → String
  | [] => ""
  | [x] => x
  | x :: y :: rest => x ++ sep ++ joinSep sep (y :: rest)

/-- `content.split('\n')`. -/
def splitLinesAux : List Char → List Char → List String
  | [], cur => [cur.reverse.asString]
  | c :: cs, cur =>
      if c = '\n' then cur.reverse.asString :: splitLinesAux cs []
      else splitLinesAux cs (c :: cur)

def jsSplitNewline (s : String) : List String :=
  splitLinesAux s.data []

/-- `s.split(/\s+/)`: fields separated by maximal whitespace runs, with an
empty leading (trailing) field when the string starts (ends) with
whitespace, and `[""]` on the empty string.  `prevWs` records whether the
previous character was part of a whitespace run. -/
def jsSplitWsAux : List Char → List Char → Bool → List String
  | [], cur, _ => [cur.reverse.asString]
  | c :: cs, cur, prevWs =>
      if c.isWhitespace then
        if prevWs then jsSplitWsAux cs [] true
        else cur.reverse.asString :: jsSplitWsAux cs [] true
      else jsSplitWsAux cs (c :: cur) false

def jsSplitWs (s : String) : List String :=
  jsSplitWsAux s.data [] false

/-- `line.match(/^(#{1,6})\s+(.+)$/)`: `1`–`6` leading `#`, at least one
whitespace character, then a non-empty remainder (which may itself start
with whitespace when the regex engine backtracks one whitespace character
into the `(.+)` group because the line otherwise ends). -/
def headingMatch (line : String) : Option (Nat × String) :=
  let cs := line.data
  let n := (cs.takeWhile (fun c => c = '#')).length
  if 1 ≤ n ∧ n ≤ 6 then
    let rest := cs.drop n
    let wsLen := (rest.takeWhile Char.isWhitespace).length
    if wsLen = 0 then none
    else if wsLen < rest.length then some (n, (rest.drop wsLen).asString)
    else if 2 ≤ wsLen then some (n, (rest.drop (wsLen - 1)).asString)
    else none
  else none

structure HeadingInfo where
  level : Nat
  text : String
  line : Nat
deriving Repr, DecidableEq

/-- State of the `chunkMarkdown` loop.  `headingStack` keeps the innermost
heading at the head (the code's array keeps it at the end); the code's
parallel `headingPath` array is always `headingStack` mapped to its labels
(both are pushed and popped at exactly the same places), so the path
snapshot is recovered as `(headingStack.map text).reverse`. -/
structure MDState where
  chunks : List KBChunk := []
  currentChunk : List String := []
  currentStartLine : Int := 0
  headingStack : List HeadingInfo := []
deriving Repr, DecidableEq

/-- Replace the last element of a list, if any. -/
def updateLast {α : Type} : List α → (α → α) → List α
  | [], _ => []
  | [x], f => [f x]
  | x :: y :: rest, f => x :: updateLast (y :: rest) f

/-- `while (stack.length > 0 && stack[stack.length-1].level >= level) pop`. -/
def popGE (level : Nat) : List HeadingInfo → List HeadingInfo
  | [] => []
  | h :: rest => if level ≤ h.level then popGE level rest else h :: rest

/-- `flushChunk` of chunkMarkdown.  Note two quirks carried over verbatim
from the source: `slice(-0)` keeps the whole buffer when `overlapLines`
is `0`, and the final `currentStartLine` assignment reads the length of
the buffer *after* it was sliced down to `overlapLines` elements, so its
net adjustment is `0` whenever `overlapLines > 0`. -/
def flushChunk (opts : ChunkingOptions) (sourceId : String) (s : MDState) :
    MDState :=
  if s.currentChunk.length = 0 then s
  else
    let chunkText := jsTrim (joinSep "\n" s.currentChunk)
    if chunkText.length = 0 then s
    else if chunkText.length < opts.minChunkSize ∧ 0 < s.chunks.length then
      { s with
        chunks := updateLast s.chunks (fun prev =>
          let content := prev.content ++ "\n" ++ chunkText
          { prev with
            content := content,
            end_line := s.currentStartLine + (s.currentChunk.length : Int),
            metadata := { char_count := content.length,
                          word_count := (jsSplitWs content).length } }),
        currentChunk := [] }
    else
      let newChunk : KBChunk :=
        { id := sourceId ++ "_chunk_" ++ toString s.chunks.length,
          content := chunkText,
          source_id := sourceId,
          start_line := s.currentStartLine + 1,
          end_line := s.currentStartLine + (s.currentChunk.length : Int),
          heading_path := (s.headingStack.map (fun h => h.text)).reverse,
          metadata := { char_count := chunkText.length,
                        word_count := (jsSplitWs chunkText).length } }
      let overlapLines := min opts.overlap s.currentChunk.length
      let currentChunk' :=
        if overlapLines = 0 then s.currentChunk
        else s.currentChunk.drop (s.currentChunk.length - overlapLines)
      { s with
        chunks := s.chunks ++ [newChunk],
        currentChunk := currentChunk',
        currentStartLine :=
          s.currentStartLine + (currentChunk'.length : Int) - (overlapLines : Int) }

/-- One iteration of the `chunkMarkdown` line loop, at line index `i`. -/
def mdStep (opts : ChunkingOptions) (sourceId : String) (s : MDState)
    (i : Nat) (line : String) : MDState :=
  match headingMatch line with
  | some (level, rawText) =>
      let text := jsTrim rawText
      let s := if 0 < s.currentChunk.length then flushChunk opts sourceId s else s
      let s := { s with
        headingStack :=
          { level := level, text := text, line := i } :: popGE level s.headingStack }
      let s := { s with currentChunk := s.currentChunk ++ [line] }
      if s.currentStartLine = 0 ∧ s.chunks.length = 0 then
        { s with currentStartLine := (i : Int) }
      else s
  | none =>
      let s :=
        if s.currentChunk.length = 0 then { s with currentStartLine := (i : Int) }
        else s
      let s := { s with currentChunk := s.currentChunk ++ [line] }
      if opts.maxChunkSize ≤ (joinSep "\n" s.currentChunk).length then
        flushChunk opts sourceId s
      else s

/-- `chunkMarkdown` of chunking.ts. -/
def chunkMarkdown (content : String) (sourceId : String)
    (opts : ChunkingOptions := DEFAULT_CHUNKING_OPTIONS) : List KBChunk :=
  if content = "" ∨ (jsTrim content).length = 0 then []
  else
    let lines := jsSplitNewline content
    let final := lines.enum.foldl
      (fun s p => mdStep opts sourceId s p.1 p.2) {}
    (flushChunk opts sourceId final).chunks

/-- `.` `!` `?` — the sentence terminators of `chunkText`. -/
def isSentenceTerm (c : Char) : Bool :=
  c = '.' || c = '!' || c = '?'

/-- The global matches of `/[^.!?]+[.!?]+/g`: a non-empty run of
non-terminators followed by a non-empty run of terminators.  `cur` is the
current candidate (reversed); `inTerms` tells whether the candidate has
already consumed at least one terminator. -/
def sentGo : List Char → List Char → Bool → List String
  | [], cur, inTerms =>
      if inTerms ∧ cur ≠ [] then [cur.reverse.asString] else []
  | c :: cs, cur, inTerms =>
      if isSentenceTerm c then
        if cur = [] then sentGo cs [] false
        else sentGo cs (c :: cur) true
      else
        if inTerms then cur.reverse.asString :: sentGo cs [c] false
        else sentGo cs (c :: cur) false

/-- `content.match(/[^.!?]+[.!?]+/g) ?? [content]`. -/
def jsSentences (content : String) : List String :=
  match sentGo content.data [] false with
  | [] => [content]
  | ms => ms

/-- State of the `chunkText` loop. -/
structure TextState where
  chunks : List KBChunk := []
  currentChunk : List String := []
  currentLength : Nat := 0
  currentStartIdx : Int := 0
deriving Repr, DecidableEq

/-- One iteration of the `chunkText` sentence loop, at sentence index
`i`.  `Math.ceil(overlap / 50)` is `(overlap + 49) / 50` on naturals, and
`slice(-0)` again keeps the whole buffer. -/
def textStep (opts : ChunkingOptions) (sourceId : String) (s : TextState)
    (i : Nat) (sentenceRaw : String) : TextState :=
  let sentence := jsTrim sentenceRaw
  let s :=
    if opts.maxChunkSize < s.currentLength + sentence.length ∧
        0 < s.currentChunk.length then
      let chunkText := jsTrim (joinSep " " s.currentChunk)
      let newChunk : KBChunk :=
        { id := sourceId ++ "_chunk_" ++ toString s.chunks.length,
          content := chunkText,
          source_id := sourceId,
          start_line := s.currentStartIdx,
          end_line := (i : Int),
          heading_path := [],
          metadata := { char_count := chunkText.length,
                        word_count := (jsSplitWs chunkText).length } }
      let overlapSentences := min ((opts.overlap + 49) / 50) s.currentChunk.length
      let currentChunk' :=
        if overlapSentences = 0 then s.currentChunk
        else s.currentChunk.drop (s.currentChunk.length - overlapSentences)
      { chunks := s.chunks ++ [newChunk],
        currentChunk := currentChunk',
        currentLength := (joinSep " " currentChunk').length,
        currentStartIdx := (i : Int) - (overlapSentences : Int) }
    else s
  { s with currentChunk := s.currentChunk ++ [sentence],
           currentLength := s.currentLength + sentence.length }

/-- `chunkText` of chunking.ts. -/
def chunkText (content : String) (sourceId : String)
    (opts : ChunkingOptions := DEFAULT_CHUNKING_OPTIONS) : List KBChunk :=
  let sentences := jsSentences content
  let s := sentences.enum.foldl
    (fun s p => textStep opts sourceId s p.1 p.2) {}
  if 0 < s.currentChunk.length then
    let chunkText := jsTrim (joinSep " " s.currentChunk)
    if opts.minChunkSize ≤ chunkText.length ∨ s.chunks.length = 0 then
      s.chunks ++
        [{ id := sourceId ++ "_chunk_" ++ toString s.chunks.length,
           content := chunkText,
           source_id := sourceId,
           start_line := s.currentStartIdx,
           end_line := (sentences.length : Int),
           heading_path := [],
           metadata := { char_count := chunkText.length,
                         word_count := (jsSplitWs chunkText).length } }]
    else s.chunks
  else s.chunks

/-! ## Bounded-concurrency batch ingestion (ingest.ts)

`processBatch` slices the work list into batches of `concurrency` items,
runs each batch through `Promise.allSettled`, keeps fulfilled values in
order and logs each rejection.  File I/O is abstracted: a task is a
function into `Except`, `error` standing for a rejected promise.  The
model returns the fulfilled values together with the list of logged
rejection reasons.  A `concurrency` of `0` loops forever in JavaScript;
the model returns nothing in that (out-of-contract) case, and every
theorem assumes `0 < concurrency`. -/

/-- The rejection reason of a settled promise, if it was rejected. -/
def exceptError? {β ε : Type} : Except ε β → Option ε
  | .error e => some e
  | .ok _ => none


def batchOf {α β ε : Type} (proc : α → Except ε β) (batch : List α) :
    List β × List ε :=
  (batch.filterMap (fun a => (proc a).toOption),
   batch.filterMap (fun a => exceptError? (proc a)))

/-- The batch loop, with `fuel` bounding the number of iterations
(`items.length` suffices whenever `0 < concurrency`). -/
def processBatchGo {α β ε : Type} (proc : α → Except ε β) (concurrency : Nat) :
    Nat → List α → List β × List ε
  | _, [] => ([], [])
  | 0, _ :: _ => ([], [])
  | fuel + 1, a :: items =>
      let (okNow, errNow) := batchOf proc ((a :: items).take concurrency)
      let (okRest, errRest) :=
        processBatchGo proc concurrency fuel ((a :: items).drop concurrency)
      (okNow ++ okRest, errNow ++ errRest)

/-- `processBatch` of ingest.ts (results, logged failures). -/
def processBatch {α β ε : Type} (items : List α) (proc : α → Except ε β)
    (concurrency : Nat) : List β × List ε :=
  processBatchGo proc concurrency items.length items

/-- `ingestDirectory` of ingest.ts, over the already-resolved deduplicated
file list: `ingestFile` abstracts the per-file read/chunk pipeline (`error`
= the file failed to ingest), and only the fulfilled Sources are
returned. -/
def ingestDirectory (files : List String)
    (ingestFile : String → Except String KBSource) (concurrency : Nat) :
    List KBSource :=
  (processBatch files ingestFile concurrency).1

/-- Logged ingestion failures of the same run. -/
def ingestFailures (files : List String)
    (ingestFile : String → Except String KBSource) (concurrency : Nat) :
    List String :=
  (processBatch files ingestFile concurrency).2


/-! ### Further concrete fixtures -/

/-- A `chunkMarkdown` state, reached while chunking
`"aaaa\nbbbb\n# H"` with options `{maxChunkSize 8, minChunkSize 5,
overlap 1}` just before the heading line's flush: one emitted chunk
covering lines 1–2, the retained overlap line `"bbbb"` in the buffer, and
the (buggy, unadjusted) tracked start line `0`. -/
def mdStateC6 : MDState :=
  { chunks := [{ id := "s_chunk_0", content := "aaaa\nbbbb", source_id := "s",
                 start_line := 1, end_line := 2,
                 metadata := { char_count := 9, word_count := 2 } }],
    currentChunk := ["bbbb"],
    currentStartLine := 0 }

/-- Scenario C: ten files, of which `f7` is unreadable. -/
def scenarioCFiles : List String :=
  ["f0", "f1", "f2", "f3", "f4", "f5", "f6", "f7", "f8", "f9"]

/-- Scenario C per-file ingestion outcome: every file yields a Source
except the unreadable `f7`. -/
def scenarioCIngest (f : String) : Except String KBSource :=
  if f = "f7" then Except.error "EACCES: permission denied"
  else Except.ok { id := f, title := f, content := "doc", chunks := [] }

/-- A non-trivially populated, valid term cache. -/
def sampleCache : TermCache :=
  [("API authentication requires a valid token",
    extractTermsPure "API authentication requires a valid token")]

/-! # Theorems -/

open List

/-- Combined scanner/characterisation lemma, by strong induction on the
length of the remaining input: (1) from a between-runs state the scanner
produces exactly the bounded runs; (2) from a mid-run state it completes
the current run with the maximal alphabetic stretch, emits it when both
boundaries are fine, and resumes after it. -/
theorem jsWordsAux_spec : ∀ (n : Nat) (cs : List Char), cs.length ≤ n →
    (∀ startOk, jsWordsAux cs startOk [] = boundedRuns startOk cs) ∧
    (∀ (run : List Char) (startOk : Bool), run ≠ [] →
      jsWordsAux cs startOk run =
        (if startOk && afterOk (cs.dropWhile isAsciiLowerAlpha)
          then [run.reverse ++ cs.takeWhile isAsciiLowerAlpha] else [])
          ++ boundedRuns false (cs.dropWhile isAsciiLowerAlpha)) := by
  intro n
  induction n with
  | zero =>
      intro cs hcs
      have : cs = [] := List.eq_nil_of_length_eq_zero (Nat.le_zero.mp hcs)
      subst this
      constructor
      · intro startOk; simp [jsWordsAux, boundedRuns]
      · intro run startOk hrun; simp [jsWordsAux, boundedRuns, afterOk, hrun]
  | succ n ih =>
      intro cs hcs
      match cs with
      | [] =>
          constructor
          · intro startOk; simp [jsWordsAux, boundedRuns]
          · intro run startOk hrun; simp [jsWordsAux, boundedRuns, afterOk, hrun]
      | c :: cs' =>
          have hlen : cs'.length ≤ n := Nat.le_of_succ_le_succ hcs
          constructor
          · intro startOk
            by_cases hc : isAsciiLowerAlpha c
            · simp only [jsWordsAux, if_pos hc]
              rw [(ih cs' hlen).2 [c] startOk (by simp)]
              rw [boundedRuns]
              simp [hc]
            · simp only [jsWordsAux, if_neg hc]
              rw [boundedRuns]
              simp only [if_neg hc]
              rw [(ih cs' hlen).1 (! isJsWordChar c)]
              simp [hc]
          · intro run startOk hrun
            by_cases hc : isAsciiLowerAlpha c
            · rw [List.takeWhile_cons_of_pos hc, List.dropWhile_cons_of_pos hc]
              simp only [jsWordsAux, if_pos hc]
              rw [(ih cs' hlen).2 (c :: run) startOk (by simp)]
              simp
            · rw [List.takeWhile_cons_of_neg (by simpa using hc),
                  List.dropWhile_cons_of_neg (by simpa using hc)]
              simp only [jsWordsAux, if_neg hc]
              rw [(ih cs' hlen).1 (! isJsWordChar c)]
              conv_rhs => rw [boundedRuns]
              simp only [if_neg hc]
              by_cases hw : isJsWordChar c
              · simp [hrun, hw, afterOk]
              · simp [hrun, hw, afterOk]

/-- The scanner agrees with the `takeWhile`-style bounded-run
characterisation, for every boundary state. -/
theorem jsWordsAux_eq_boundedRuns (cs : List Char) (startOk : Bool) :
    jsWordsAux cs startOk [] = boundedRuns startOk cs :=
  (jsWordsAux_spec cs.length cs (Nat.le_refl _)).1 startOk



/-! ## Claim C1 — Scenario A -/

/-- C1 fails as stated: the query `"API key not working"` tokenizes to
FOUR terms — `not` is three characters long and absent from `STOP_WORDS`,
so it survives both filters — and the chunk's normalised score is `1/4`,
not `1/3`. -/
theorem scenarioA_counterexample :
    extractTermsPure "API key not working" ≠ ["api", "key", "working"] ∧
    extractTermsPure "API key not working" = ["api", "key", "not", "working"] ∧
    searchPositions idxScenarioA "API key not working" {} = [(0, mkRat 1 4)] ∧
    mkRat 1 4 ≠ mkRat 1 3 := by decide

/-- C1, amended: the query tokenizes to the four terms `api`, `key`,
`not`, `working`; only `api` matches the indexed chunk, so its normalised
score is `1/4 = 0.25`, which clears the default `minScore = 0.1`, and the
chunk is returned (as the sole result). -/
theorem scenarioA_amended :
    extractTermsPure "API key not working" = ["api", "key", "not", "working"] ∧
    ({} : SearchOptions).minScore ≤ mkRat 1 4 ∧
    (search idxScenarioA "API key not working" {}).map
        (fun r => (r.chunk.id, r.score)) = [("c1", mkRat 1 4)] := by decide

/-! ## Claim C2 — the tokenizer -/

/-- C2 fails as stated: on `"abc123"` the claimed tokenizer (digits acting
as plain separators) produces the candidate word `abc`, but the regex
`/\b[a-z]+\b/` matches nothing because the run `abc` is bordered by the
word character `1`, so `extractTerms` returns no terms at all. -/
theorem tokenizer_separators_counterexample :
    extractTermsClaimed "abc123" = ["abc"] ∧
    extractTermsPure "abc123" = [] ∧
    extractTermsPure "abc123" ≠ extractTermsClaimed "abc123" := by decide

/-- C2, amended: the tokenizer lowercases the text, extracts exactly the
maximal runs of alphabetic characters whose neighbouring characters (when
present) are non-word characters — a run adjacent to a digit or underscore
yields no candidate word — drops every word of length at most 2 and every
stop word, and returns the first-occurrence deduplicated remainder; being
a function, it is pure and deterministic. -/
theorem extractTermsPure_characterisation (text : String) :
    extractTermsPure text =
      dedupFirst (((boundedRuns true (jsToLower text).data).map List.asString).filter
        (fun w => w ∉ STOP_WORDS ∧ w.length > 2)) := by
  simp only [extractTermsPure, jsWords, jsWordsAux_eq_boundedRuns]

/-! ## Claim C3 — empty and whitespace-only documents -/

/-- C3 fails as stated: on the empty document `chunkText` emits one chunk
(with empty content) instead of none — the final flush's
`chunks.length === 0` disjunct emits the remaining buffer unconditionally,
and there is no empty-input guard like `chunkMarkdown`'s. -/
theorem chunkText_empty_input_counterexample :
    chunkText "" "src" ≠ [] ∧
    (chunkText "" "src").map (fun c => c.content) = [""] := by decide

/-! ## Claim C4 — top-K bound, sort order, tie order -/

/-- C4 fails as stated: with chunk 0 containing only `zebra` and chunk 1
only `apple`, the query `"apple zebra"` gives both chunks the same score
`1/2`, yet the results come back as positions `[1, 0]` — the stable sort
preserves score-map insertion order (first query term first), not
chunk-array order. -/
theorem search_tie_order_counterexample :
    (searchPositions idxTie "apple zebra" {}).map Prod.fst = [1, 0] ∧
    (searchPositions idxTie "apple zebra" {}).map Prod.snd =
      [mkRat 1 2, mkRat 1 2] := by decide

/-! ## Claim C5 — overlap retention and line bookkeeping -/

/-- C5's failing input: chunking `"aaaa\nbbbb\ncccc"` with
`{maxChunkSize 8, minChunkSize 1, overlap 1}`.  The trailing overlap line
is retained as the next buffer's seed, but
`currentStartLine += currentChunk.length - overlapLines` reads the length
of the buffer *after* it has been sliced down to `overlapLines` lines, a
net-zero adjustment — so the second chunk, whose content `"bbbb\ncccc"`
covers source lines 2–3 (1-based), reports `start_line 1, end_line 2`,
and the third chunk (`"cccc"`, line 3) reports `start_line 1,
end_line 1`. -/
theorem chunkMarkdown_startLine_bug :
    (chunkMarkdown "aaaa\nbbbb\ncccc" "s" ⟨8, 1, 1⟩).map
        (fun c => (c.content, c.start_line, c.end_line)) =
      [("aaaa\nbbbb", 1, 2), ("bbbb\ncccc", 1, 2), ("cccc", 1, 1)] := by decide

/-! ## Claim C6 — the merge rule of `flushChunk` -/

/-- C6 fails as stated on the "end line extended" part: merging the
too-small buffer `["bbbb"]` (trimmed length 4 < minChunkSize 5) into the
previous chunk rewrites that chunk's `end_line` from `2` to
`currentStartLine + currentChunk.length = 0 + 1 = 1` — the end line
*shrinks*, because the tracked start line was never advanced past the
retained overlap lines. -/
theorem flushChunk_endline_counterexample :
    mdStateC6.chunks.map (fun c => c.end_line) = [2] ∧
    ((flushChunk ⟨8, 5, 1⟩ "s" mdStateC6).chunks.map (fun c => c.end_line)) = [1] ∧
    (flushChunk ⟨8, 5, 1⟩ "s" mdStateC6).chunks.length = 1 := by decide

/-! ## Stable-sort lemmas -/

theorem insertStable_perm {α : Type} (le : α → α → Bool) (x : α) (l : List α) :
    insertStable le x l ~ x :: l := by
  induction l with
  | nil => exact List.Perm.refl _
  | cons y ys ih =>
      unfold insertStable
      by_cases h : le x y && ! le y x
      · simp [h]
      · simp only [h, if_false, Bool.false_eq_true]
        exact (ih.cons y).trans (List.Perm.swap x y ys)

theorem sortStable_go_perm {α : Type} (le : α → α → Bool) (l : List α) :
    ∀ acc : List α, l.foldl (fun acc x => insertStable le x acc) acc ~ acc ++ l := by
  induction l with
  | nil => intro acc; simp
  | cons x xs ih =>
      intro acc
      simp only [List.foldl_cons]
      calc xs.foldl (fun acc x => insertStable le x acc) (insertStable le x acc)
          ~ insertStable le x acc ++ xs := ih _
        _ ~ (x :: acc) ++ xs := (insertStable_perm le x acc).append_right xs
        _ ~ acc ++ x :: xs := List.perm_middle.symm

theorem sortStable_perm {α : Type} (le : α → α → Bool) (l : List α) :
    sortStable le l ~ l := by
  simpa using sortStable_go_perm le l []

theorem insertStable_pairwise {α : Type} (le : α → α → Bool)
    (trans : ∀ a b c, le a b = true → le b c = true → le a c = true)
    (total : ∀ a b, le a b = true ∨ le b a = true)
    (x : α) (l : List α) (h : l.Pairwise (fun a b => le a b = true)) :
    (insertStable le x l).Pairwise (fun a b => le a b = true) := by
  induction l with
  | nil => simp [insertStable]
  | cons y ys ih =>
      unfold insertStable
      by_cases hc : le x y && ! le y x
      · simp only [hc, if_true]
        have hxy : le x y = true := (Bool.and_eq_true _ _ |>.mp hc).1
        refine List.Pairwise.cons ?_ h
        intro z hz
        rcases List.mem_cons.mp hz with rfl | hz'
        · exact hxy
        · exact trans x y z hxy (List.rel_of_pairwise_cons h hz')
      · simp only [hc, if_false, Bool.false_eq_true]
        have hyx : le y x = true := by
          rcases total x y with hxy | hyx
          · by_cases hyx : le y x = true
            · exact hyx
            · exact absurd (by simp [hxy, hyx]) hc
          · exact hyx
        refine List.Pairwise.cons ?_ (ih h.tail)
        intro z hz
        have : z = x ∨ z ∈ ys :=
          List.mem_cons.mp ((insertStable_perm le x ys).mem_iff.mp hz)
        rcases this with rfl | hz'
        · exact hyx
        · exact List.rel_of_pairwise_cons h hz'

theorem sortStable_pairwise {α : Type} (le : α → α → Bool)
    (trans : ∀ a b c, le a b = true → le b c = true → le a c = true)
    (total : ∀ a b, le a b = true ∨ le b a = true) (l : List α) :
    (sortStable le l).Pairwise (fun a b => le a b = true) := by
  unfold sortStable
  exact List.foldlRecOn l (fun acc x => insertStable le x acc) []
    List.Pairwise.nil
    (fun acc hacc a _ => insertStable_pairwise le trans total a acc hacc)

theorem insertStable_filter_of_neg {α : Type} (le : α → α → Bool)
    (p : α → Bool) (x : α) (hx : p x = false) (l : List α) :
    (insertStable le x l).filter p = l.filter p := by
  induction l with
  | nil => simp [insertStable, hx]
  | cons y ys ih =>
      unfold insertStable
      by_cases h : le x y && ! le y x
      · simp [h, hx]
      · simp only [h, if_false, Bool.false_eq_true, List.filter_cons]
        by_cases hy : p y
        · simp [hy, ih]
        · simp [hy, ih]

theorem insertStable_filter_of_pos {α : Type} (le : α → α → Bool)
    (trans : ∀ a b c, le a b = true → le b c = true → le a c = true)
    (p : α → Bool) (x : α) (hx : p x = true) (l : List α)
    (hl : l.Pairwise (fun a b => le a b = true))
    (hties : ∀ y ∈ l, p y = true → le x y = true ∧ le y x = true) :
    (insertStable le x l).filter p = l.filter p ++ [x] := by
  induction l with
  | nil => simp [insertStable, hx]
  | cons y ys ih =>
      unfold insertStable
      by_cases h : le x y && ! le y x
      · have hyx : le y x = false := by
          rcases Bool.and_eq_true _ _ |>.mp h with ⟨-, hr⟩
          simpa using hr
        have hnone : (y :: ys).filter p = [] := by
          rw [List.filter_eq_nil_iff]
          intro z hz hpz
          rcases List.mem_cons.mp hz with rfl | hz'
          · exact absurd ((hties z (List.mem_cons_self z ys) hpz).2)
              (by simp [hyx])
          · have h1 : le z x = true := (hties z hz hpz).2
            have h2 : le y z = true := List.rel_of_pairwise_cons hl hz'
            exact absurd (trans y z x h2 h1) (by simp [hyx])
        simp only [h, if_true, List.filter_cons, hx, hnone]
        simp only [List.filter_eq_nil_iff] at hnone
        have hy : p y = false := by
          by_cases hy : p y
          · exact absurd hy (by simpa using hnone y (List.mem_cons_self y ys))
          · simpa using hy
        have hys : ys.filter p = [] := by
          rw [List.filter_eq_nil_iff]
          intro z hz hpz
          exact hnone z (List.mem_cons_of_mem y hz) hpz
        simp [hy, hys]
      · simp only [h, if_false, Bool.false_eq_true, List.filter_cons]
        have ihr := ih hl.tail (fun z hz hpz => hties z (List.mem_cons_of_mem y hz) hpz)
        by_cases hy : p y
        · simp [hy, ihr]
        · simp [hy, ihr]

theorem sortStable_go_filter {α : Type} (le : α → α → Bool)
    (trans : ∀ a b c, le a b = true → le b c = true → le a c = true)
    (total : ∀ a b, le a b = true ∨ le b a = true)
    (p : α → Bool)
    (hties : ∀ a b, p a = true → p b = true → le a b = true)
    (l : List α) :
    ∀ acc : List α, acc.Pairwise (fun a b => le a b = true) →
      (l.foldl (fun acc x => insertStable le x acc) acc).filter p =
        acc.filter p ++ l.filter p := by
  induction l with
  | nil => intro acc _; simp
  | cons x xs ih =>
      intro acc hacc
      simp only [List.foldl_cons]
      rw [ih (insertStable le x acc) (insertStable_pairwise le trans total x acc hacc)]
      by_cases hx : p x
      · rw [insertStable_filter_of_pos le trans p x hx acc hacc
            (fun y _ hpy => ⟨hties x y hx hpy, hties y x hpy hx⟩)]
        simp [hx, List.filter_cons]
      · rw [insertStable_filter_of_neg le p x (by simpa using hx) acc]
        simp [hx, List.filter_cons]

/-- Stability of the sort: elements sharing one comparator class (here: one
score value) come out in exactly their input order. -/
theorem sortStable_filter {α : Type} (le : α → α → Bool)
    (trans : ∀ a b c, le a b = true → le b c = true → le a c = true)
    (total : ∀ a b, le a b = true ∨ le b a = true)
    (p : α → Bool)
    (hties : ∀ a b, p a = true → p b = true → le a b = true)
    (l : List α) :
    (sortStable le l).filter p = l.filter p := by
  unfold sortStable
  simpa using sortStable_go_filter le trans total p hties l [] List.Pairwise.nil

theorem resultLE_trans : ∀ a b c : Nat × Rat,
    resultLE a b = true → resultLE b c = true → resultLE a c = true := by
  intro a b c hab hbc
  simp only [resultLE, decide_eq_true_eq] at *
  exact hbc.trans hab

theorem resultLE_total : ∀ a b : Nat × Rat,
    resultLE a b = true ∨ resultLE b a = true := by
  intro a b
  simp only [resultLE, decide_eq_true_eq]
  exact le_total b.2 a.2

/-! ## Claim C4, amended -/

/-- C4, amended: `search` returns at most `topK` results, ordered by
non-increasing score; among equal-score results the output preserves the
order in which their chunk positions were first recorded in the score
accumulation (the order of first encounter while iterating the query's
terms over their posting sets) — not, in general, chunk-array order. -/
theorem search_topK_sorted_stable (index : RetrievalIndex) (query : String)
    (opts : SearchOptions) :
    (search index query opts).length ≤ opts.topK ∧
    (search index query opts).Pairwise (fun a b => b.score ≤ a.score) ∧
    ∀ v : Rat,
      (searchPositions index query opts).filter (fun r => decide (r.2 = v)) <+
        (scoreCandidates index query opts).filter (fun r => decide (r.2 = v)) := by
  refine ⟨?_, ?_, ?_⟩
  · simp only [search, List.length_map, searchPositions]
    exact List.length_take_le _ _
  · have hpos : (searchPositions index query opts).Pairwise
        (fun a b => resultLE a b = true) :=
      ((sortStable_pairwise resultLE resultLE_trans resultLE_total
        (scoreCandidates index query opts)).sublist (List.take_sublist _ _))
    have hpos' : (searchPositions index query opts).Pairwise
        (fun a b : Nat × Rat => b.2 ≤ a.2) :=
      hpos.imp (fun h => by simpa [resultLE] using h)
    exact hpos'.map _ (fun a b h => h)
  · intro v
    have h1 : (searchPositions index query opts).filter (fun r => decide (r.2 = v)) <+
        (sortStable resultLE (scoreCandidates index query opts)).filter
          (fun r => decide (r.2 = v)) :=
      (List.take_sublist _ _).filter _
    rwa [sortStable_filter resultLE resultLE_trans resultLE_total _
      (fun a b ha hb => by
        simp only [decide_eq_true_eq] at ha hb
        simp [resultLE, ha, hb])] at h1

/-! ## Claim C10 — pairwise-distinct chunk positions -/

theorem bumpScore_fst (l : List (Nat × Nat)) (i : Nat) :
    (i ∈ l.map Prod.fst ∧ (bumpScore l i).map Prod.fst = l.map Prod.fst) ∨
    (i ∉ l.map Prod.fst ∧
      (bumpScore l i).map Prod.fst = l.map Prod.fst ++ [i]) := by
  induction l with
  | nil => right; simp [bumpScore]
  | cons a rest ih =>
      rcases a with ⟨j, v⟩
      by_cases h : j = i
      · left
        constructor
        · simp [h]
        · simp [bumpScore, h]
      · rcases ih with ⟨hmem, heq⟩ | ⟨hnmem, heq⟩
        · left
          constructor
          · simp [hmem]
          · simp [bumpScore, h, heq]
        · right
          constructor
          · simp only [List.map_cons, List.mem_cons]
            rintro (rfl | hmem)
            · exact h rfl
            · exact hnmem hmem
          · simp [bumpScore, h, heq]

theorem bumpScore_nodup (l : List (Nat × Nat)) (i : Nat)
    (h : (l.map Prod.fst).Nodup) : ((bumpScore l i).map Prod.fst).Nodup := by
  rcases bumpScore_fst l i with ⟨-, heq⟩ | ⟨hnmem, heq⟩
  · rw [heq]; exact h
  · rw [heq]
    simp only [List.nodup_append, List.nodup_cons, List.not_mem_nil,
      not_false_iff, List.nodup_nil, and_true, true_and]
    refine ⟨h, ?_⟩
    intro a ha hb
    have : a = i := by simpa using hb
    subst this
    exact hnmem ha

theorem foldl_bumpScore_nodup (ps : List Nat) (l : List (Nat × Nat))
    (h : (l.map Prod.fst).Nodup) :
    (((ps.foldl bumpScore l)).map Prod.fst).Nodup :=
  List.foldlRecOn ps bumpScore l h (fun acc hacc i _ => bumpScore_nodup acc i hacc)

theorem rawScores_go_nodup (index : RetrievalIndex) (queryTerms : List String) :
    ∀ acc : List (Nat × Nat), (acc.map Prod.fst).Nodup →
      ((queryTerms.foldl
          (fun scores term =>
            match mapGet? index.termIndex term with
            | none => scores
            | some ps => ps.foldl bumpScore scores) acc).map Prod.fst).Nodup := by
  induction queryTerms with
  | nil => intro acc h; exact h
  | cons t ts ih =>
      intro acc h
      simp only [List.foldl_cons]
      apply ih
      cases hg : mapGet? index.termIndex t with
      | none => exact h
      | some ps => exact foldl_bumpScore_nodup ps acc h

theorem rawScores_nodup (index : RetrievalIndex) (queryTerms : List String) :
    ((rawScores index queryTerms).map Prod.fst).Nodup := by
  unfold rawScores
  exact rawScores_go_nodup index queryTerms [] List.Pairwise.nil

/-- C10: within one `search` call no chunk position is returned twice —
the score map's keys are distinct, and normalisation, filtering, sorting
and truncation preserve that. -/
theorem search_results_distinct (index : RetrievalIndex) (query : String)
    (opts : SearchOptions) :
    ((searchPositions index query opts).map Prod.fst).Nodup := by
  have h0 : ((rawScores index (extractTermsPure query)).map Prod.fst).Nodup :=
    rawScores_nodup index (extractTermsPure query)
  have h1 : ((scoreCandidates index query opts).map Prod.fst).Nodup := by
    unfold scoreCandidates
    have hmap : (((rawScores index (extractTermsPure query)).map
        (fun p => (p.1, mkRat (p.2 : Int) (extractTermsPure query).length))).map
          Prod.fst).Nodup := by
      rw [List.map_map]
      exact h0
    exact hmap.sublist ((List.filter_sublist _).map Prod.fst)
  have h2 : ((sortStable resultLE (scoreCandidates index query opts)).map
      Prod.fst).Nodup :=
    (((sortStable_perm resultLE (scoreCandidates index query opts)).map
      Prod.fst).nodup_iff).mpr h1
  exact h2.sublist ((List.take_sublist _ _).map Prod.fst)

/-! ## Claim C7 — index structural invariants -/

theorem foldl_push_eq_append {α : Type} (l acc : List α) :
    l.foldl (fun cs c => cs ++ [c]) acc = acc ++ l := by
  induction l generalizing acc with
  | nil => simp
  | cons x xs ih => simp [ih]

theorem foldl_append_chunks (sources : List KBSource) :
    ∀ acc : List KBChunk,
      sources.foldl (fun cs s => cs ++ s.chunks) acc =
        acc ++ sources.flatMap (fun s => s.chunks) := by
  induction sources with
  | nil => intro acc; simp
  | cons s rest ih =>
      intro acc
      simp [List.flatMap_cons, ih, List.append_assoc]

theorem buildIndexChunks_eq (sources : List KBSource) :
    buildIndexChunks sources = sources.flatMap (fun s => s.chunks) := by
  unfold buildIndexChunks
  have hfun : (fun (cs : List KBChunk) (s : KBSource) =>
      s.chunks.foldl (fun cs' c => cs' ++ [c]) cs) = fun cs s => cs ++ s.chunks := by
    funext cs s
    exact foldl_push_eq_append _ _
  rw [hfun]
  simpa using foldl_append_chunks sources []

/-- Every posting entry of `ti` is strictly below `n`. -/
def postingsBounded (ti : List (String × List Nat)) (n : Nat) : Prop :=
  ∀ term ps, (term, ps) ∈ ti → ∀ i ∈ ps, i < n

theorem setAdd_bounded {ps : List Nat} {n i : Nat}
    (hps : ∀ j ∈ ps, j < n) (hi : i < n) : ∀ j ∈ setAdd ps i, j < n := by
  intro j hj
  unfold setAdd at hj
  by_cases hmem : i ∈ ps
  · exact hps j (by simpa [hmem] using hj)
  · simp only [hmem, if_false, List.mem_append, List.mem_singleton] at hj
    rcases hj with hj | rfl
    · exact hps j hj
    · exact hi

theorem addPosting_bounded {ti : List (String × List Nat)} {n : Nat}
    (h : postingsBounded ti n) {term : String} {i : Nat} (hi : i < n) :
    postingsBounded (addPosting ti term i) n := by
  induction ti with
  | nil =>
      intro t ps hmem j hj
      simp only [addPosting, List.mem_singleton, Prod.mk.injEq] at hmem
      obtain ⟨rfl, rfl⟩ := hmem
      have hji : j = i := by simpa using hj
      subst hji
      exact hi
  | cons a rest ih =>
      obtain ⟨t0, ps0⟩ := a
      have hhead : ∀ j ∈ ps0, j < n := h t0 ps0 (List.mem_cons_self _ _)
      have hrest : postingsBounded rest n :=
        fun t' ps' hm => h t' ps' (List.mem_cons_of_mem _ hm)
      intro t ps hmem j hj
      unfold addPosting at hmem
      by_cases ht : t0 = term
      · simp only [if_pos ht] at hmem
        rcases List.mem_cons.mp hmem with heq | hmem'
        · cases heq
          exact setAdd_bounded hhead hi j hj
        · exact hrest t ps hmem' j hj
      · simp only [if_neg ht] at hmem
        rcases List.mem_cons.mp hmem with heq | hmem'
        · cases heq
          exact hhead j hj
        · exact ih hrest t ps hmem' j hj

theorem foldl_addPosting_bounded (terms : List String)
    {ti : List (String × List Nat)} {n i : Nat}
    (h : postingsBounded ti n) (hi : i < n) :
    postingsBounded (terms.foldl (fun ti' term => addPosting ti' term i) ti) n :=
  List.foldlRecOn (motive := fun m => postingsBounded m n) terms
    (fun ti' term => addPosting ti' term i) ti h
    (fun _acc hacc _term _ => addPosting_bounded hacc hi)

theorem buildTermIndex_bounded (contents : List String) :
    postingsBounded (buildTermIndex contents) contents.length := by
  unfold buildTermIndex
  refine List.foldlRecOn (motive := fun m => postingsBounded m contents.length)
    (List.range contents.length) _ []
    (fun t ps hmem => absurd hmem (List.not_mem_nil _)) ?_
  intro acc hacc i hi
  exact foldl_addPosting_bounded _ hacc (List.mem_range.mp hi)

/-- C7: `buildIndex` lists chunks in source order, and within each source
in that source's chunk order, and every posting-set entry is a valid
position into that flat chunk array.  (The model is immutable, so the
invariant cannot decay during later queries: `search` takes the index by
value and returns a fresh list.) -/
theorem buildIndex_invariants (tenantId projectId : String)
    (sources : List KBSource) :
    (buildIndex tenantId projectId sources).chunks =
      sources.flatMap (fun s => s.chunks) ∧
    ∀ term ps, (term, ps) ∈ (buildIndex tenantId projectId sources).termIndex →
      ∀ i ∈ ps, i < (buildIndex tenantId projectId sources).chunks.length := by
  constructor
  · simp [buildIndex, buildIndexChunks_eq]
  · intro term ps hmem i hi
    have h := buildTermIndex_bounded
      ((buildIndexChunks sources).map (fun c => c.content)) term ps
      (by simpa [buildIndex] using hmem) i hi
    simpa [buildIndex, List.length_map] using h

/-- Witness for C7 at the two-chunk fixture: the posting `0` of term
`zebra` is a valid position. -/
theorem buildIndex_invariants_witness :
    (buildIndex "t1" "p1" [srcTie]).chunks =
      [srcTie].flatMap (fun s => s.chunks) ∧
    0 < (buildIndex "t1" "p1" [srcTie]).chunks.length :=
  ⟨(buildIndex_invariants "t1" "p1" [srcTie]).1,
   (buildIndex_invariants "t1" "p1" [srcTie]).2 "zebra" [0] (by decide) 0 (by decide)⟩

/-! ## Claim C8 — idempotent build and cache transparency -/

theorem validCache_iff (c : TermCache) :
    validCache c = true ↔ ∀ p ∈ c, p.2 = extractTermsPure p.1 := by
  unfold validCache
  simp [List.all_eq_true]

theorem mapGet?_mem {α : Type} {m : List (String × α)} {k : String} {v : α}
    (h : mapGet? m k = some v) : (k, v) ∈ m := by
  unfold mapGet? at h
  cases hf : m.find? (fun p => p.1 = k) with
  | none => rw [hf] at h; simp at h
  | some p =>
      rw [hf] at h
      simp at h
      have hp : p.1 = k := by simpa using List.find?_some hf
      have hpm := List.mem_of_find?_eq_some hf
      obtain ⟨p1, p2⟩ := p
      simp only at hp h
      subst hp
      subst h
      exact hpm

theorem mapSet_mem {α : Type} {m : List (String × α)} {k : String} {v : α} :
    ∀ p ∈ mapSet m k v, p = (k, v) ∨ p ∈ m := by
  induction m with
  | nil =>
      intro p hp
      simp only [mapSet, List.mem_singleton] at hp
      exact Or.inl hp
  | cons a rest ih =>
      obtain ⟨k0, v0⟩ := a
      intro p hp
      unfold mapSet at hp
      by_cases hk : k0 = k
      · simp only [if_pos hk, List.mem_cons] at hp
        rcases hp with rfl | hp'
        · exact Or.inl rfl
        · exact Or.inr (List.mem_cons_of_mem _ hp')
      · simp only [if_neg hk, List.mem_cons] at hp
        rcases hp with rfl | hp'
        · exact Or.inr (List.mem_cons_self _ _)
        · rcases ih p hp' with h | h
          · exact Or.inl h
          · exact Or.inr (List.mem_cons_of_mem _ h)

theorem validCache_of_sublist {c c' : TermCache} (hsub : c' <+ c)
    (h : validCache c = true) : validCache c' = true := by
  rw [validCache_iff] at *
  intro p hp
  exact h p (hsub.mem hp)

theorem setCachedTerms_valid {c : TermCache} (h : validCache c = true)
    (text : String) :
    validCache (setCachedTerms c text (extractTermsPure text)) = true := by
  unfold setCachedTerms
  have hc' : validCache (if MAX_CACHE_SIZE ≤ c.length then c.tail else c) = true := by
    by_cases hlen : MAX_CACHE_SIZE ≤ c.length
    · simpa [hlen] using validCache_of_sublist (List.tail_sublist c) h
    · simpa [hlen] using h
  rw [validCache_iff]
  intro p hp
  rcases mapSet_mem p hp with rfl | hp'
  · rfl
  · exact (validCache_iff _).mp hc' p hp'

theorem extractTerms_valid (cache : TermCache) (text : String)
    (h : validCache cache = true) :
    (extractTerms cache text).1 = extractTermsPure text ∧
    validCache (extractTerms cache text).2 = true := by
  unfold extractTerms getCachedTerms
  cases hg : mapGet? cache text with
  | none =>
      exact ⟨rfl, setCachedTerms_valid h text⟩
  | some ts =>
      have hts : ts = extractTermsPure text := by
        have hmem := mapGet?_mem hg
        simpa using (validCache_iff cache).mp h (text, ts) hmem
      refine ⟨hts, ?_⟩
      rw [validCache_iff]
      intro p hp
      rcases List.mem_append.mp hp with hp' | hp'
      · exact (validCache_iff cache).mp h p ((List.eraseP_sublist _).mem hp')
      · have : p = (text, ts) := by simpa using hp'
        subst this
        simpa using hts

theorem extractAllCached_valid (l : List String) :
    ∀ cache : TermCache, validCache cache = true →
      (extractAllCached cache l).1 = l.map extractTermsPure ∧
      validCache (extractAllCached cache l).2 = true := by
  induction l with
  | nil => intro c h; exact ⟨rfl, h⟩
  | cons x xs ih =>
      intro c h
      obtain ⟨h1, h2⟩ := extractTerms_valid c x h
      rcases hE : extractTerms c x with ⟨ts, c'⟩
      rw [hE] at h1 h2
      simp only at h1 h2
      obtain ⟨ih1, ih2⟩ := ih c' h2
      rcases hA : extractAllCached c' xs with ⟨tss, c''⟩
      rw [hA] at ih1 ih2
      simp only at ih1 ih2
      constructor
      · simp [extractAllCached, hE, hA, h1, ih1]
      · simp [extractAllCached, hE, hA, ih2]

theorem getD_map_extract (contents : List String) (i : Nat)
    (hi : i < contents.length) :
    (contents.map extractTermsPure).getD i [] =
      extractTermsPure (contents.getD i "") := by
  have hm : i < (contents.map extractTermsPure).length := by simpa using hi
  rw [List.getD_eq_getElem _ _ hm, List.getD_eq_getElem _ _ hi]
  simp

theorem buildIndexCached_eq (tenantId projectId : String)
    (sources : List KBSource) (cache : TermCache)
    (h : validCache cache = true) :
    (buildIndexCached tenantId projectId sources cache).1 =
      buildIndex tenantId projectId sources ∧
    validCache (buildIndexCached tenantId projectId sources cache).2 = true := by
  obtain ⟨h1, h2⟩ :=
    extractAllCached_valid ((buildIndexChunks sources).map (fun c => c.content)) cache h
  rcases hE : extractAllCached cache ((buildIndexChunks sources).map (fun c => c.content))
    with ⟨termsList, cache'⟩
  rw [hE] at h1 h2
  simp only at h1 h2
  constructor
  · show (buildIndexCached tenantId projectId sources cache).1 = _
    simp only [buildIndexCached, hE]
    unfold buildIndex buildTermIndex
    congr 1
    apply List.foldl_ext
    intro acc i hi
    rw [h1, getD_map_extract _ _ (by simpa using List.mem_range.mp hi)]
  · show validCache (buildIndexCached tenantId projectId sources cache).2 = true
    simp only [buildIndexCached, hE]
    exact h2

theorem searchCached_eq (index : RetrievalIndex) (query : String)
    (opts : SearchOptions) (cache : TermCache)
    (h : validCache cache = true) :
    (searchCached index query opts cache).1 = search index query opts ∧
    validCache (searchCached index query opts cache).2 = true := by
  obtain ⟨h1, h2⟩ := extractTerms_valid cache query h
  rcases hE : extractTerms cache query with ⟨qt, c'⟩
  rw [hE] at h1 h2
  simp only at h1 h2
  subst h1
  constructor
  · show (searchCached index query opts cache).1 = _
    simp only [searchCached, hE]
    unfold search searchPositions scoreCandidates
    rfl
  · show validCache (searchCached index query opts cache).2 = true
    simp only [searchCached, hE]
    exact h2

/-- C8: the term cache is semantically transparent and builds are
idempotent.  Under any two valid cache states (in particular the cleared
cache and any pre-populated one), `buildIndex` produces the same index —
equal chunk array and equal term→postings map — namely the cache-free
one, the cache stays valid afterwards (so an immediately repeated build
through the shared cache again yields the identical index), and `search`
through the cache returns exactly the cache-free results. -/
theorem termCache_transparent (tenantId projectId query : String)
    (sources : List KBSource) (index : RetrievalIndex) (opts : SearchOptions)
    (c₁ c₂ : TermCache)
    (h₁ : validCache c₁ = true) (h₂ : validCache c₂ = true) :
    (buildIndexCached tenantId projectId sources c₁).1 =
      buildIndex tenantId projectId sources ∧
    (buildIndexCached tenantId projectId sources c₂).1 =
      buildIndex tenantId projectId sources ∧
    validCache (buildIndexCached tenantId projectId sources c₁).2 = true ∧
    (searchCached index query opts c₁).1 = search index query opts ∧
    validCache (searchCached index query opts c₁).2 = true ∧
    validCache clearTermCache = true :=
  ⟨(buildIndexCached_eq tenantId projectId sources c₁ h₁).1,
   (buildIndexCached_eq tenantId projectId sources c₂ h₂).1,
   (buildIndexCached_eq tenantId projectId sources c₁ h₁).2,
   (searchCached_eq index query opts c₁ h₁).1,
   (searchCached_eq index query opts c₁ h₁).2,
   rfl⟩

/-- Witness for C8: a cleared cache and a pre-populated valid cache give
the Scenario A build and search identical, cache-free results. -/
theorem termCache_transparent_witness :
    (buildIndexCached "t1" "p1" [srcScenarioA] clearTermCache).1 =
      buildIndex "t1" "p1" [srcScenarioA] ∧
    (buildIndexCached "t1" "p1" [srcScenarioA] sampleCache).1 =
      buildIndex "t1" "p1" [srcScenarioA] ∧
    (searchCached idxScenarioA "API key not working" {} clearTermCache).1 =
      search idxScenarioA "API key not working" {} := by
  have h := termCache_transparent "t1" "p1" "API key not working" [srcScenarioA]
    idxScenarioA {} clearTermCache sampleCache (by decide) (by decide)
  exact ⟨h.1, h.2.1, h.2.2.2.1⟩

/-! ## Claim C9 — failure isolation and concurrency independence -/

theorem exceptError?_ok {β ε : Type} (b : β) :
    @exceptError? β ε (Except.ok b) = none := rfl

theorem exceptError?_error {β ε : Type} (e : ε) :
    @exceptError? β ε (Except.error e) = some e := rfl

theorem processBatchGo_eq {α β ε : Type} (proc : α → Except ε β)
    (concurrency : Nat) (hc : 0 < concurrency) :
    ∀ (fuel : Nat) (items : List α), items.length ≤ fuel →
      processBatchGo proc concurrency fuel items =
        (items.filterMap (fun a => (proc a).toOption),
         items.filterMap (fun a => exceptError? (proc a))) := by
  intro fuel
  induction fuel with
  | zero =>
      intro items hlen
      have : items = [] := List.eq_nil_of_length_eq_zero (Nat.le_zero.mp hlen)
      subst this
      rfl
  | succ n ih =>
      intro items hlen
      match items with
      | [] => rfl
      | a :: rest =>
          have hdrop : ((a :: rest).drop concurrency).length ≤ n := by
            rw [List.length_drop]
            have : (a :: rest).length ≤ n + 1 := hlen
            omega
          show processBatchGo proc concurrency (n + 1) (a :: rest) = _
          rw [processBatchGo]
          rw [ih _ hdrop]
          simp only [batchOf]
          rw [show (a :: rest) = (a :: rest).take concurrency ++ (a :: rest).drop concurrency
            from (List.take_append_drop _ _).symm]
          rw [List.filterMap_append, List.filterMap_append]
          simp [List.take_append_drop]

theorem filterMap_ok_err_length {α β ε : Type} (proc : α → Except ε β)
    (items : List α) :
    (items.filterMap (fun a => (proc a).toOption)).length +
      (items.filterMap (fun a => exceptError? (proc a))).length = items.length := by
  induction items with
  | nil => rfl
  | cons a rest ih =>
      cases hp : proc a with
      | ok b =>
          simp only [List.filterMap_cons, hp, Except.toOption, exceptError?_ok,
            List.length_cons]
          simp only [Except.toOption] at ih
          omega
      | error e =>
          simp only [List.filterMap_cons, hp, Except.toOption, exceptError?_error,
            List.length_cons]
          simp only [Except.toOption] at ih
          omega

/-- C9: for every resolved file list and per-file outcome, and every
positive concurrency, the batch driver returns exactly the successfully
ingested Sources — in file order, one per successful file — and logs
exactly the failures, in file order; both are independent of the
concurrency value, so one file's failure never affects any sibling in the
same or a later batch. -/
theorem ingestDirectory_failure_isolation (files : List String)
    (ingestFile : String → Except String KBSource) (concurrency : Nat)
    (hc : 0 < concurrency) :
    ingestDirectory files ingestFile concurrency =
      files.filterMap (fun f => (ingestFile f).toOption) ∧
    ingestFailures files ingestFile concurrency =
      files.filterMap (fun f => exceptError? (ingestFile f)) ∧
    (ingestDirectory files ingestFile concurrency).length +
      (ingestFailures files ingestFile concurrency).length = files.length := by
  have h := processBatchGo_eq ingestFile concurrency hc files.length files
    (Nat.le_refl _)
  refine ⟨?_, ?_, ?_⟩
  · unfold ingestDirectory processBatch
    rw [h]
  · unfold ingestFailures processBatch
    rw [h]
  · unfold ingestDirectory ingestFailures processBatch
    rw [h]
    exact filterMap_ok_err_length ingestFile files

/-- Witness for C9 (Scenario C): over 9 valid files and 1 unreadable file,
`ingestDirectory` returns exactly 9 Sources and logs exactly 1 failure,
for concurrency 1, 5, and 20 alike. -/
theorem ingestDirectory_failure_isolation_witness :
    (ingestDirectory scenarioCFiles scenarioCIngest 5 =
        scenarioCFiles.filterMap (fun f => (scenarioCIngest f).toOption)) ∧
    (ingestDirectory scenarioCFiles scenarioCIngest 1).length = 9 ∧
    (ingestDirectory scenarioCFiles scenarioCIngest 5).length = 9 ∧
    (ingestDirectory scenarioCFiles scenarioCIngest 20).length = 9 ∧
    (ingestFailures scenarioCFiles scenarioCIngest 1).length = 1 ∧
    (ingestFailures scenarioCFiles scenarioCIngest 5).length = 1 ∧
    (ingestFailures scenarioCFiles scenarioCIngest 20).length = 1 :=
  ⟨(ingestDirectory_failure_isolation scenarioCFiles scenarioCIngest 5
      (by decide)).1,
   by decide, by decide, by decide, by decide, by decide, by decide⟩

/-! ## Claim C3, amended — whitespace-only documents -/

/-- A trim-empty string consists of whitespace only. -/
theorem jsTrim_empty_all_ws {s : String} (h : jsTrim s = "") :
    ∀ c ∈ s.data, c.isWhitespace := by
  intro c hc
  have hdata : ((s.data.dropWhile Char.isWhitespace).reverse.dropWhile
      Char.isWhitespace).reverse = [] := by
    have h2 := congrArg String.data h
    simp only [jsTrim] at h2
    exact h2
  rw [List.reverse_eq_nil_iff, List.dropWhile_eq_nil_iff] at hdata
  rcases List.mem_append.mp
      ((List.takeWhile_append_dropWhile Char.isWhitespace s.data) ▸ hc)
    with h1 | h1
  · exact List.mem_takeWhile_imp h1
  · exact hdata c (List.mem_reverse.mpr h1)

theorem sentGo_no_term (l : List Char)
    (hno : ∀ c ∈ l, isSentenceTerm c = false) :
    ∀ cur : List Char, sentGo l cur false = [] := by
  induction l with
  | nil => intro cur; rfl
  | cons c cs ih =>
      intro cur
      have hc : isSentenceTerm c = false := hno c (List.mem_cons_self _ _)
      unfold sentGo
      rw [hc]
      simp only [Bool.false_eq_true, if_false]
      exact ih (fun d hd => hno d (List.mem_cons_of_mem _ hd)) (c :: cur)

/-- C3, amended: for every empty or whitespace-only document and every
chunking options record, `chunkMarkdown` returns no chunks, while
`chunkText` returns exactly one chunk whose content is the empty
string. -/
theorem chunkers_whitespace_only (content sourceId : String)
    (opts : ChunkingOptions) (h : jsTrim content = "") :
    chunkMarkdown content sourceId opts = [] ∧
    (chunkText content sourceId opts).map (fun c => c.content) = [""] := by
  constructor
  · have hlen : (jsTrim content).length = 0 := by rw [h]; rfl
    simp [chunkMarkdown, hlen]
  · have hws := jsTrim_empty_all_ws h
    have hnoterm : ∀ c ∈ content.data, isSentenceTerm c = false := by
      intro c hc
      have hw : c.isWhitespace = true := hws c hc
      by_contra hst
      have hst' : isSentenceTerm c = true := by simpa using hst
      have hcase : (c = '.' ∨ c = '!') ∨ c = '?' := by
        simpa [isSentenceTerm, decide_eq_true_eq] using hst'
      rcases hcase with (rfl | rfl) | rfl <;> exact absurd hw (by decide)
    have hsent : jsSentences content = [content] := by
      unfold jsSentences
      rw [sentGo_no_term content.data hnoterm []]
    have henum : ([content] : List String).enum = [(0, content)] := rfl
    have hstep : textStep opts sourceId {} 0 content =
        { chunks := [], currentChunk := [""], currentLength := 0,
          currentStartIdx := 0 } := by
      unfold textStep
      rw [h]
      simp
    have htrim : jsTrim (joinSep " " [""]) = "" := rfl
    simp only [chunkText, hsent, henum, List.foldl_cons, List.foldl_nil, hstep,
      htrim]
    simp

/-- Witness for C3 at the whitespace-only document `" "`. -/
theorem chunkers_whitespace_only_witness :
    chunkMarkdown " " "src" DEFAULT_CHUNKING_OPTIONS = [] ∧
    (chunkText " " "src" DEFAULT_CHUNKING_OPTIONS).map (fun c => c.content) =
      [""] :=
  chunkers_whitespace_only " " "src" DEFAULT_CHUNKING_OPTIONS (by decide)

/-! ## Claim C6, amended — the merge rule of `flushChunk` -/

theorem updateLast_length {α : Type} (l : List α) (f : α → α) :
    (updateLast l f).length = l.length := by
  induction l with
  | nil => rfl
  | cons x xs ih =>
      cases xs with
      | nil => rfl
      | cons y ys =>
          show (x :: updateLast (y :: ys) f).length = (x :: y :: ys).length
          simp only [List.length_cons, ih]

theorem updateLast_getLast? {α : Type} (l : List α) (f : α → α) :
    (updateLast l f).getLast? = l.getLast?.map f := by
  induction l with
  | nil => rfl
  | cons x xs ih =>
      cases xs with
      | nil => rfl
      | cons y ys =>
          show (x :: updateLast (y :: ys) f).getLast? = _
          cases hu : updateLast (y :: ys) f with
          | nil =>
              exfalso
              have hlen := updateLast_length (y :: ys) f
              rw [hu] at hlen
              simp at hlen
          | cons a as =>
              rw [hu] at ih
              rw [List.getLast?_cons_cons, ih, List.getLast?_cons_cons]

theorem updateLast_dropLast {α : Type} (l : List α) (f : α → α) :
    (updateLast l f).dropLast = l.dropLast := by
  induction l with
  | nil => rfl
  | cons x xs ih =>
      cases xs with
      | nil => rfl
      | cons y ys =>
          show (x :: updateLast (y :: ys) f).dropLast = (x :: y :: ys).dropLast
          cases hu : updateLast (y :: ys) f with
          | nil =>
              exfalso
              have hlen := updateLast_length (y :: ys) f
              rw [hu] at hlen
              simp at hlen
          | cons a as =>
              rw [hu] at ih
              rw [List.dropLast_cons₂, ih, List.dropLast_cons₂]

theorem string_ne_empty_length_pos {s : String} (h : s ≠ "") : 0 < s.length := by
  rcases s with ⟨l⟩
  cases l with
  | nil => exact absurd rfl h
  | cons c cs => simp [String.length]

/-- C6, amended: when the trimmed buffer is non-empty and shorter than
`minChunkSize`, `flushChunk` with at least one already-emitted chunk
merges the text into the last emitted chunk — appending it after a
newline separator, setting that chunk's end line to the tracked start
line plus the buffer's line count (which need not extend it), and
recomputing its character and word counts from the merged content — and
emits no standalone chunk; with no chunk emitted yet, the text is emitted
as a new chunk (the document's first) regardless of its size. -/
theorem flushChunk_merge_rule (opts : ChunkingOptions) (sourceId : String)
    (s : MDState)
    (hne : jsTrim (joinSep "\n" s.currentChunk) ≠ "")
    (hsmall : (jsTrim (joinSep "\n" s.currentChunk)).length < opts.minChunkSize) :
    (0 < s.chunks.length →
      (flushChunk opts sourceId s).chunks.length = s.chunks.length ∧
      (flushChunk opts sourceId s).currentChunk = [] ∧
      (flushChunk opts sourceId s).chunks.dropLast = s.chunks.dropLast ∧
      ((flushChunk opts sourceId s).chunks.getLast?).map (fun c => c.content) =
        (s.chunks.getLast?).map (fun prev =>
          prev.content ++ "\n" ++ jsTrim (joinSep "\n" s.currentChunk)) ∧
      ((flushChunk opts sourceId s).chunks.getLast?).map (fun c => c.end_line) =
        (s.chunks.getLast?).map (fun _ =>
          s.currentStartLine + (s.currentChunk.length : Int)) ∧
      ((flushChunk opts sourceId s).chunks.getLast?).map (fun c => c.metadata) =
        (s.chunks.getLast?).map (fun prev =>
          { char_count :=
              (prev.content ++ "\n" ++ jsTrim (joinSep "\n" s.currentChunk)).length,
            word_count :=
              (jsSplitWs (prev.content ++ "\n" ++
                jsTrim (joinSep "\n" s.currentChunk))).length })) ∧
    (s.chunks.length = 0 →
      (flushChunk opts sourceId s).chunks.length = 1 ∧
      ((flushChunk opts sourceId s).chunks.head?).map (fun c => c.content) =
        some (jsTrim (joinSep "\n" s.currentChunk))) := by
  have hcc : s.currentChunk.length ≠ 0 := by
    intro h0
    have : s.currentChunk = [] := List.eq_nil_of_length_eq_zero h0
    rw [this] at hne
    exact hne rfl
  have hlen : (jsTrim (joinSep "\n" s.currentChunk)).length ≠ 0 := by
    have := string_ne_empty_length_pos hne
    omega
  constructor
  · intro hprev
    have hcond : (jsTrim (joinSep "\n" s.currentChunk)).length < opts.minChunkSize
        ∧ 0 < s.chunks.length := ⟨hsmall, hprev⟩
    have hflush : flushChunk opts sourceId s =
        { s with
          chunks := updateLast s.chunks (fun prev =>
            { prev with
              content := prev.content ++ "\n" ++
                jsTrim (joinSep "\n" s.currentChunk),
              end_line := s.currentStartLine + (s.currentChunk.length : Int),
              metadata :=
                { char_count := (prev.content ++ "\n" ++
                    jsTrim (joinSep "\n" s.currentChunk)).length,
                  word_count := (jsSplitWs (prev.content ++ "\n" ++
                    jsTrim (joinSep "\n" s.currentChunk))).length } }),
          currentChunk := [] } := by
      simp only [flushChunk, if_neg hcc, if_neg hlen, if_pos hcond]
    rw [hflush]
    refine ⟨updateLast_length _ _, rfl, updateLast_dropLast _ _, ?_, ?_, ?_⟩
    · rw [show ({ s with
          chunks := updateLast s.chunks _, currentChunk := [] } : MDState).chunks
          = updateLast s.chunks _ from rfl, updateLast_getLast?, Option.map_map]
      rfl
    · rw [show ({ s with
          chunks := updateLast s.chunks _, currentChunk := [] } : MDState).chunks
          = updateLast s.chunks _ from rfl, updateLast_getLast?, Option.map_map]
      rfl
    · rw [show ({ s with
          chunks := updateLast s.chunks _, currentChunk := [] } : MDState).chunks
          = updateLast s.chunks _ from rfl, updateLast_getLast?, Option.map_map]
      rfl
  · intro hprev0
    have hnil : s.chunks = [] := List.eq_nil_of_length_eq_zero hprev0
    have hcond : ¬ ((jsTrim (joinSep "\n" s.currentChunk)).length <
        opts.minChunkSize ∧ 0 < s.chunks.length) := by
      rintro ⟨-, hpos⟩
      omega
    simp only [flushChunk, if_neg hcc, if_neg hlen, if_neg hcond, hnil]
    simp

/-- Witness for C6 at the concrete merge state `mdStateC6`: one previous
chunk, buffer `["bbbb"]` with trimmed length `4 < 5`; the merge keeps the
chunk count at one and empties the buffer. -/
theorem flushChunk_merge_rule_witness :
    (flushChunk ⟨8, 5, 1⟩ "s" mdStateC6).chunks.length =
      mdStateC6.chunks.length ∧
    (flushChunk ⟨8, 5, 1⟩ "s" mdStateC6).currentChunk = [] :=
  ⟨((flushChunk_merge_rule ⟨8, 5, 1⟩ "s" mdStateC6 (by decide) (by decide)).1
      (by decide)).1,
   ((flushChunk_merge_rule ⟨8, 5, 1⟩ "s" mdStateC6 (by decide) (by decide)).1
      (by decide)).2.1⟩

end KB
